import Mathlib

/-!
Verification of the hugo-validator core: the incremental validation cache
(src/lib/validate.js) and the link-crawling engine (src/tests/links.spec.ts),
shallowly embedded as executable Lean definitions.
-/

/-- A JavaScript object with string keys, modelled as an insertion-ordered
association list.  JS objects have unique keys; `objSet` preserves that. -/
abbrev Obj (α : Type) := List (String × α)

/-- JS property read, as in cachedHashes[file]: the binding for the key, if any. -/
def objGet {α : Type} : Obj α → String → Option α
  | [], _ => none
  | (k0, v0) :: rest, k => if k0 = k then some v0 else objGet rest k

/-- JS property write, as in currentHashes[file] = hash: overwrite in place if
the key exists, else append (JS objects keep insertion order). -/
def objSet {α : Type} : Obj α → String → α → Obj α
  | [], k, v => [(k, v)]
  | (k0, v0) :: rest, k, v =>
    if k0 = k then (k, v) :: rest else (k0, v0) :: objSet rest k v

/-- JS spreading a list through new Set, keeping first occurrences in order,
as in the return of getFilesForStage. -/
def dedupGo (acc : List String) : List String → List String
  | [] => acc
  | x :: xs => dedupGo (if x ∈ acc then acc else acc ++ [x]) xs

/-- Deduplicated file list, as produced by getFilesForStage. -/
def dedupL (l : List String) : List String := dedupGo [] l

/-- The persisted cache record of validate.js: top-level keys tests
(stage outcomes), fileHashes (per-stage fingerprint maps), lastRun.
File hashes model the md5 hex digests; a digest string is never empty,
so JS truthiness on a present hash is just presence. -/
structure Cache where
  tests : Obj String
  fileHashes : Obj (Obj Nat)
  lastRun : Option String
deriving Repr, DecidableEq

/-- The empty record returned by loadCache when no usable file exists. -/
def emptyCache : Cache := ⟨[], [], none⟩

/-- Possible outcomes of attempting to read and parse the persisted cache
file in loadCache: the file is missing, reading it throws, JSON.parse
throws, or a record is obtained. -/
inductive CacheFileState where
  | missing
  | readError
  | parseError
  | ok (c : Cache)

/-- loadCache of validate.js: any failure inside the try block falls through
to the empty record; a parsed record is returned as is. -/
def loadCache : CacheFileState → Cache
  | .missing => emptyCache
  | .readError => emptyCache
  | .parseError => emptyCache
  | .ok c => c

/-- The first loop of hasFilesChanged: walk the (already capped) file list,
hash each file (skipping files whose hash fails), record the hash in the
current fingerprint map and flag a change when the cached hash differs.
The filesystem is the partial map fsys from path to content hash; a path
absent from fsys models a file hashFile cannot read. -/
def fingerprintScan (fsys cached : Obj Nat) : List String → Obj Nat → Bool → Obj Nat × Bool
  | [], cur, changed => (cur, changed)
  | f :: rest, cur, changed =>
    match objGet fsys f with
    | some h =>
      fingerprintScan fsys cached rest (objSet cur f h)
        (changed || decide (objGet cached f ≠ some h))
    | none => fingerprintScan fsys cached rest cur changed

/-- hasFilesChanged of validate.js: fingerprint at most 100 files, then flag
a change for every cached path missing from the fresh fingerprint map.
Returns (changed, currentHashes). -/
def hasFilesChanged (fsys cached : Obj Nat) (files : List String) : Bool × Obj Nat :=
  let scanned := fingerprintScan fsys cached (files.take 100) [] false
  (scanned.2 || cached.any (fun kv => (objGet scanned.1 kv.1).isNone), scanned.1)

/-- The smart-skip decision inside validate: skip exactly when the cached
outcome for the stage is passed and hasFilesChanged reported no change. -/
def skipDecision (previousResult : Option String) (changed : Bool) : Bool :=
  previousResult == some "passed" && !changed

/-- External inputs of one pipeline run: the observed file lists per stage
(as returned by the find-based discovery, before deduplication), the
filesystem content hashes, and the outcome each stage produces if it runs. -/
structure StageEnv where
  filesOf : String → List String
  fsys : Obj Nat
  resultOf : String → String

/-- getFilesForStage: the deduplicated observed file list of a stage. -/
def filesForStage (env : StageEnv) (stage : String) : List String :=
  dedupL (env.filesOf stage)

/-- The fileCheck computed for a stage inside the validate loop, with the
cached per-stage map defaulted to empty as in cache.fileHashes[stage] or {}. -/
def stageFileCheck (env : StageEnv) (cache : Cache) (stage : String) : Bool × Obj Nat :=
  hasFilesChanged env.fsys ((objGet cache.fileHashes stage).getD []) (filesForStage env stage)

/-- One iteration of the stage loop in validate.  In smart mode (interactive
and not forced) the stage is skipped, leaving the cache untouched, exactly
when the previous outcome was passed and nothing changed; otherwise the fresh
fingerprints are stored, the stage runs and its outcome is recorded.  Outside
smart mode the stage always runs and only the outcome is recorded.  Returns
the updated cache and whether the stage executed. -/
def stageStep (smart : Bool) (env : StageEnv) (cache : Cache) (stage : String) : Cache × Bool :=
  if smart then
    let fileCheck := stageFileCheck env cache stage
    if skipDecision (objGet cache.tests stage) fileCheck.1 then
      (cache, false)
    else
      let cache1 : Cache := { cache with fileHashes := objSet cache.fileHashes stage fileCheck.2 }
      (⟨objSet cache1.tests stage (env.resultOf stage), cache1.fileHashes, cache1.lastRun⟩, true)
  else
    (⟨objSet cache.tests stage (env.resultOf stage), cache.fileHashes, cache.lastRun⟩, true)

/-- The stage loop of validate over the requested stages. -/
def runStages (smart : Bool) (env : StageEnv) (stages : List String) (cache : Cache) : Cache :=
  match stages with
  | [] => cache
  | s :: rest => runStages smart env rest (stageStep smart env cache s).1

/-- The skip condition of a stage against a given cache state. -/
def stageSkipCond (env : StageEnv) (cache : Cache) (stage : String) : Bool :=
  skipDecision (objGet cache.tests stage) (stageFileCheck env cache stage).1

theorem objGet_objSet {α : Type} (m : Obj α) (k k' : String) (v : α) :
    objGet (objSet m k v) k' = if k' = k then some v else objGet m k' := by
  induction m with
  | nil =>
    by_cases h : k' = k
    · subst h; simp [objSet, objGet]
    · have h2 : ¬ k = k' := fun hh => h hh.symm
      simp [objSet, objGet, h, h2]
  | cons hd tl ih =>
    obtain ⟨k0, v0⟩ := hd
    by_cases h0 : k0 = k
    · subst h0
      by_cases h : k' = k0
      · subst h; simp [objSet, objGet]
      · have h2 : ¬ k0 = k' := fun hh => h hh.symm
        simp [objSet, objGet, h, h2]
    · simp only [objSet, if_neg h0, objGet]
      by_cases h : k0 = k'
      · subst h
        simp [objGet, h0]
      · simp [h, ih]

theorem objGet_isSome_iff {α : Type} (m : Obj α) (k : String) :
    (objGet m k).isSome = true ↔ ∃ v, (k, v) ∈ m := by
  induction m with
  | nil => simp [objGet]
  | cons hd tl ih =>
    obtain ⟨k0, v0⟩ := hd
    by_cases h : k0 = k
    · subst h; simp [objGet]
    · simp only [objGet, if_neg h, ih, List.mem_cons]
      constructor
      · rintro ⟨v, hv⟩; exact ⟨v, Or.inr hv⟩
      · rintro ⟨v, hv | hv⟩
        · cases hv; exact absurd rfl h
        · exact ⟨v, hv⟩

theorem objGet_eq_some_mem {α : Type} {m : Obj α} {k : String} {v : α}
    (h : objGet m k = some v) : (k, v) ∈ m := by
  induction m with
  | nil => simp [objGet] at h
  | cons hd tl ih =>
    obtain ⟨k0, v0⟩ := hd
    by_cases h0 : k0 = k
    · subst h0
      simp [objGet] at h
      simp [h]
    · simp only [objGet, if_neg h0] at h
      exact List.mem_cons_of_mem _ (ih h)

theorem fingerprintScan_snd_eq_false (fsys cached : Obj Nat) (files : List String)
    (cur : Obj Nat) (changed : Bool) :
    (fingerprintScan fsys cached files cur changed).2 = false ↔
      changed = false
      ∧ ∀ f ∈ files, ∀ hh, objGet fsys f = some hh → objGet cached f = some hh := by
  induction files generalizing cur changed with
  | nil => simp [fingerprintScan]
  | cons f rest ih =>
    cases hE : objGet fsys f with
    | none =>
      simp only [fingerprintScan, hE, ih, List.mem_cons]
      constructor
      · rintro ⟨hc, hr⟩
        refine ⟨hc, ?_⟩
        rintro g (rfl | hg) hh hfs
        · rw [hE] at hfs; cases hfs
        · exact hr g hg hh hfs
      · rintro ⟨hc, hr⟩
        exact ⟨hc, fun g hg hh hfs => hr g (Or.inr hg) hh hfs⟩
    | some h =>
      simp only [fingerprintScan, hE, ih, List.mem_cons, Bool.or_eq_false_iff,
        decide_eq_false_iff_not, not_not]
      constructor
      · rintro ⟨⟨hc, hcache⟩, hr⟩
        refine ⟨hc, ?_⟩
        rintro g (rfl | hg) hh hfs
        · rw [hE] at hfs; cases hfs; exact hcache
        · exact hr g hg hh hfs
      · rintro ⟨hc, hr⟩
        exact ⟨⟨hc, hr f (Or.inl rfl) h hE⟩, fun g hg hh hfs => hr g (Or.inr hg) hh hfs⟩

theorem fingerprintScan_fst_objGet (fsys cached : Obj Nat) (files : List String)
    (cur : Obj Nat) (changed : Bool) (k : String) :
    objGet (fingerprintScan fsys cached files cur changed).1 k =
      if k ∈ files ∧ (objGet fsys k).isSome then objGet fsys k else objGet cur k := by
  induction files generalizing cur changed with
  | nil => simp [fingerprintScan]
  | cons f rest ih =>
    cases hE : objGet fsys f with
    | none =>
      simp only [fingerprintScan, hE, ih, List.mem_cons]
      by_cases hk : k = f
      · subst hk
        simp [hE]
      · simp [hk]
    | some h =>
      simp only [fingerprintScan, hE, ih, List.mem_cons]
      rw [objGet_objSet]
      by_cases hk : k = f
      · subst hk
        by_cases hr : k ∈ rest <;> simp [hE, hr]
      · simp [hk]

theorem hasFilesChanged_changed_false (fsys cached : Obj Nat) (files : List String) :
    (hasFilesChanged fsys cached files).1 = false ↔
      (∀ f hh, objGet (hasFilesChanged fsys cached files).2 f = some hh →
        objGet cached f = some hh)
      ∧ (∀ f, (objGet cached f).isSome = true →
        (objGet (hasFilesChanged fsys cached files).2 f).isSome = true) := by
  have hdef2 : (hasFilesChanged fsys cached files).2 =
      (fingerprintScan fsys cached (files.take 100) [] false).1 := rfl
  have hdef1 : (hasFilesChanged fsys cached files).1 =
      ((fingerprintScan fsys cached (files.take 100) [] false).2
        || cached.any (fun kv =>
            (objGet (fingerprintScan fsys cached (files.take 100) [] false).1 kv.1).isNone)) := rfl
  have hfst : ∀ k, objGet (hasFilesChanged fsys cached files).2 k =
      if k ∈ files.take 100 ∧ (objGet fsys k).isSome then objGet fsys k else none := by
    intro k
    rw [hdef2, fingerprintScan_fst_objGet]
    simp [objGet]
  rw [hdef1, Bool.or_eq_false_iff, fingerprintScan_snd_eq_false, List.any_eq_false]
  constructor
  · rintro ⟨⟨-, hscan⟩, hdel⟩
    constructor
    · intro f hh hf
      rw [hfst f] at hf
      split at hf
      · next hc => exact hscan f hc.1 hh hf
      · cases hf
    · intro f hf
      obtain ⟨v, hv⟩ := (objGet_isSome_iff cached f).mp hf
      have hne : ¬ (objGet (fingerprintScan fsys cached (files.take 100) [] false).1 f).isNone
          = true := by simpa using hdel (f, v) hv
      rw [hdef2]
      cases hopt : objGet (fingerprintScan fsys cached (files.take 100) [] false).1 f with
      | none => exact absurd (by simp [hopt]) hne
      | some w => simp [hopt]
  · rintro ⟨hmatch, hpresent⟩
    refine ⟨⟨rfl, ?_⟩, ?_⟩
    · intro f hfmem hh hfs
      apply hmatch f hh
      rw [hfst f]
      rw [if_pos ⟨hfmem, by rw [hfs]; rfl⟩]
      exact hfs
    · intro kv hkv
      have hsome : (objGet cached kv.1).isSome = true :=
        (objGet_isSome_iff cached kv.1).mpr ⟨kv.2, hkv⟩
      have hps := hpresent kv.1 hsome
      rw [hdef2] at hps
      intro hcontra
      simp only [Option.isNone_iff_eq_none] at hcontra
      rw [hcontra] at hps
      cases hps

theorem skipDecision_eq_true (previousResult : Option String) (changed : Bool) :
    skipDecision previousResult changed = true ↔
      previousResult = some "passed" ∧ changed = false := by
  simp [skipDecision]

/-- C1: The claim states that the skip decision is skip=true if and only if the
cached outcome is passed and, among other conditions, no previously
fingerprinted path is absent from the current FILE LIST.  This closed
counterexample refutes that: the cached path a is present in the current file
list ["a"] but unreadable (absent from the filesystem map), so no file is
fingerprinted at all — every condition of the claim holds — yet the code
flags a change (the deletion loop compares against the fingerprint map, not
the file list) and the decision is skip=false. -/
theorem c1_skip_iff_counterexample :
    skipDecision (some "passed") (hasFilesChanged [] [("a", 5)] ["a"]).1 = false
    ∧ (hasFilesChanged [] [("a", 5)] ["a"]).2 = []
    ∧ "a" ∈ ["a"] := by
  refine ⟨by decide, by decide, ?_⟩
  simp

/-- C1 (amended): for every cached outcome, filesystem, cached fingerprint map
and observed file list, the skip decision returns skip=true if and only if the
cached outcome is "passed", no fingerprinted file's hash differs from the
cached hash, and no previously cached path is absent from the freshly computed
fingerprint map (a cached path that is unreadable or beyond the 100-file cap
counts as absent even when still listed); in particular a prior outcome other
than "passed" forces skip=false regardless of file state. -/
theorem c1_skip_iff_cache_passed_and_unchanged (previousResult : Option String)
    (fsys cached : Obj Nat) (files : List String) :
    (skipDecision previousResult (hasFilesChanged fsys cached files).1 = true ↔
      previousResult = some "passed"
      ∧ (∀ f hh, objGet (hasFilesChanged fsys cached files).2 f = some hh →
          objGet cached f = some hh)
      ∧ (∀ f, (objGet cached f).isSome = true →
          (objGet (hasFilesChanged fsys cached files).2 f).isSome = true))
    ∧ (previousResult ≠ some "passed" →
        skipDecision previousResult (hasFilesChanged fsys cached files).1 = false) := by
  constructor
  · rw [skipDecision_eq_true, hasFilesChanged_changed_false]
  · intro hne
    cases hres : skipDecision previousResult (hasFilesChanged fsys cached files).1 with
    | false => rfl
    | true => exact absurd ((skipDecision_eq_true _ _).mp hres).1 hne

/-- C1 witness: at the trivial input (empty filesystem, empty cache, no files)
the amended theorem yields skip=true for a previously passed stage. -/
theorem c1_skip_iff_witness :
    skipDecision (some "passed") (hasFilesChanged [] [] []).1 = true := by
  have h := (c1_skip_iff_cache_passed_and_unchanged (some "passed") [] [] []).1
  refine h.mpr ⟨rfl, ?_, ?_⟩
  · intro f hh hf
    simp [hasFilesChanged, fingerprintScan, objGet] at hf
  · intro f hf
    simp [objGet] at hf

/-- C8: loading the cache is a total function and returns the empty record on
each failure mode (missing file, read failure, parse failure); moreover, with
the empty record every stage executes in smart mode — corruption downgrades to
always-run, never to a skip. -/
theorem c8_load_never_fails_and_always_runs :
    (loadCache .missing = emptyCache ∧ loadCache .readError = emptyCache
      ∧ loadCache .parseError = emptyCache)
    ∧ (∀ (env : StageEnv) (stage : String),
        (stageStep true env emptyCache stage).2 = true) := by
  refine ⟨⟨rfl, rfl, rfl⟩, ?_⟩
  intro env stage
  simp [stageStep, skipDecision, emptyCache, objGet]

theorem stageStep_skip (env : StageEnv) (cache : Cache) (stage : String)
    (h : stageSkipCond env cache stage = true) :
    stageStep true env cache stage = (cache, false) := by
  rw [stageSkipCond] at h
  simp [stageStep, h]

theorem stageStep_preserves (smart : Bool) (env : StageEnv) (cache : Cache)
    (t s : String) (hne : t ≠ s) :
    objGet (stageStep smart env cache t).1.tests s = objGet cache.tests s
    ∧ objGet (stageStep smart env cache t).1.fileHashes s = objGet cache.fileHashes s := by
  have hne2 : ¬ (s = t) := fun hh => hne hh.symm
  cases smart with
  | false => simp [stageStep, objGet_objSet, hne2]
  | true =>
    by_cases hskip : skipDecision (objGet cache.tests t) (stageFileCheck env cache t).1 = true
    · simp [stageStep, hskip]
    · simp only [stageStep, Bool.false_eq_true, if_true]
      rw [if_neg hskip]
      simp [objGet_objSet, hne2]

theorem stageSkipCond_congr (env : StageEnv) (c1 c2 : Cache) (s : String)
    (h1 : objGet c1.tests s = objGet c2.tests s)
    (h2 : objGet c1.fileHashes s = objGet c2.fileHashes s) :
    stageSkipCond env c1 s = stageSkipCond env c2 s := by
  simp [stageSkipCond, stageFileCheck, h1, h2]

theorem runStages_preserves_not_mem (smart : Bool) (env : StageEnv) (s : String) :
    ∀ (stages : List String) (cache : Cache), s ∉ stages →
    objGet (runStages smart env stages cache).tests s = objGet cache.tests s
    ∧ objGet (runStages smart env stages cache).fileHashes s = objGet cache.fileHashes s := by
  intro stages
  induction stages with
  | nil => intro cache _; exact ⟨rfl, rfl⟩
  | cons t rest ih =>
    intro cache hs
    have hne : t ≠ s := fun h => hs (h ▸ List.mem_cons_self t rest)
    have hrest : s ∉ rest := fun h => hs (List.mem_cons_of_mem _ h)
    obtain ⟨ha, hb⟩ := ih (stageStep smart env cache t).1 hrest
    obtain ⟨hc, hd⟩ := stageStep_preserves smart env cache t s hne
    constructor
    · rw [runStages]; rw [ha, hc]
    · rw [runStages]; rw [hb, hd]

theorem runStages_skip_frame (env : StageEnv) (s : String) :
    ∀ (stages : List String) (cache : Cache), stages.Nodup → s ∈ stages →
    stageSkipCond env cache s = true →
    objGet (runStages true env stages cache).tests s = objGet cache.tests s
    ∧ objGet (runStages true env stages cache).fileHashes s = objGet cache.fileHashes s := by
  intro stages
  induction stages with
  | nil => intro cache _ hmem _; cases hmem
  | cons t rest ih =>
    intro cache hnd hmem hskip
    by_cases hts : t = s
    · subst hts
      have hstep : stageStep true env cache t = (cache, false) :=
        stageStep_skip env cache t hskip
      have hrest : t ∉ rest := (List.nodup_cons.mp hnd).1
      rw [runStages, hstep]
      exact runStages_preserves_not_mem true env t rest cache hrest
    · have hmem2 : s ∈ rest := by
        rcases List.mem_cons.mp hmem with h | h
        · exact absurd h.symm hts
        · exact h
      have hnd2 := (List.nodup_cons.mp hnd).2
      obtain ⟨hc, hd⟩ := stageStep_preserves true env cache t s hts
      have hskip2 : stageSkipCond env (stageStep true env cache t).1 s = true := by
        rw [stageSkipCond_congr env (stageStep true env cache t).1 cache s hc hd]
        exact hskip
      obtain ⟨ha, hb⟩ := ih (stageStep true env cache t).1 hnd2 hmem2 hskip2
      constructor
      · rw [runStages]; rw [ha, hc]
      · rw [runStages]; rw [hb, hd]

/-- C9: in a smart-mode run over distinct stages, a stage whose skip condition
holds (prior outcome passed and nothing changed) keeps both its cached outcome
entry and its fingerprint map untouched by the whole run; and a stage that is
not requested at all is likewise untouched in any mode — fingerprints are
overwritten only in runs where the stage actually executes. -/
theorem c9_skipped_stage_cache_frame (env : StageEnv) (s : String)
    (stages : List String) (cache : Cache)
    (hnd : stages.Nodup) (hmem : s ∈ stages)
    (hskip : stageSkipCond env cache s = true) :
    (objGet (runStages true env stages cache).tests s = objGet cache.tests s
      ∧ objGet (runStages true env stages cache).fileHashes s = objGet cache.fileHashes s)
    ∧ (∀ (smart : Bool) (stages2 : List String) (cache2 : Cache), s ∉ stages2 →
        objGet (runStages smart env stages2 cache2).tests s = objGet cache2.tests s
        ∧ objGet (runStages smart env stages2 cache2).fileHashes s
          = objGet cache2.fileHashes s) := by
  constructor
  · exact runStages_skip_frame env s stages cache hnd hmem hskip
  · intro smart stages2 cache2 hnot
    exact runStages_preserves_not_mem smart env s stages2 cache2 hnot

/-- C9 witness: a concrete one-stage run in which the css stage previously
passed and nothing changed leaves its cache entries untouched. -/
theorem c9_skipped_stage_cache_frame_witness :
    objGet (runStages true ⟨fun _ => [], [], fun _ => "passed"⟩ ["css"]
        ⟨[("css", "passed")], [], none⟩).tests "css" = some "passed" := by
  have h := c9_skipped_stage_cache_frame ⟨fun _ => [], [], fun _ => "passed"⟩ "css"
    ["css"] ⟨[("css", "passed")], [], none⟩ (by simp) (by simp) (by decide)
  rw [h.1.1]
  decide

/-- JS startsWith on strings, computed on the underlying character lists. -/
def startsWithB (s pre : String) : Bool := pre.data.isPrefixOf s.data

/-- JS href.split at the hash character, first segment: the prefix of href
before the first occurrence of the hash character, or all of href when none
occurs — the cleanPath computation of links.spec.ts. -/
def cleanPath (href : String) : String :=
  String.mk (href.data.takeWhile (fun c => c != '#'))

/-- Outcome of a page.goto fetch in Playwright: the call can throw (timeout,
DNS failure), return null, or return a response carrying a status; on a 200
response the page body yields the list of anchor href attributes. -/
inductive FetchOutcome where
  | thrown
  | nullResp
  | resp (status : Nat) (links : List String)
deriving Repr, DecidableEq

/-- The site under test: a finite map from internal path to fetch outcome.
Paths the server does not know answer 404 with no links. -/
abbrev Web := List (String × FetchOutcome)

/-- Fetching baseURL + path against the modelled site. -/
def fetchPage (web : Web) (p : String) : FetchOutcome :=
  (objGet web p).getD (.resp 404 [])

/-- Status field of a LinkResult: a numeric HTTP status or the string error. -/
inductive LStatus where
  | code (n : Nat)
  | error
deriving Repr, DecidableEq

/-- A broken or checked link record: url, status, page it was found on. -/
structure LinkResult where
  url : String
  status : LStatus
  foundOn : String
deriving Repr, DecidableEq

/-- State of the internal-link crawl of links.spec.ts.  The fields visited,
toVisit, originMap (internalLinks) and broken (brokenLinks) mirror the
variables of the test; fetchCount counts page.goto calls and enqueueLog
records every path ever pushed onto the frontier, in order — both are ghost
instrumentation that the code observes only implicitly. -/
structure St1 where
  visited : List String
  toVisit : List String
  originMap : Obj String
  broken : List LinkResult
  fetchCount : Nat
  enqueueLog : List String
deriving Repr, DecidableEq

/-- Classification of one href in the internal-link pass: skip fragment-only,
mailto, tel and javascript links; enqueue an internal href (leading slash but
not protocol-relative) after stripping its fragment, unless the clean path was
already visited or is already queued; ignore everything else. -/
def procHref1 (currentPath : String) (st : St1) (href : String) : St1 :=
  if startsWithB href "#" || startsWithB href "mailto:" || startsWithB href "tel:"
      || startsWithB href "javascript:" then st
  else if startsWithB href "/" && !(startsWithB href "//") then
    let cleanP := cleanPath href
    if cleanP ∈ st.visited ∨ cleanP ∈ st.toVisit then st
    else { st with toVisit := st.toVisit ++ [cleanP],
                   originMap := objSet st.originMap cleanP currentPath,
                   enqueueLog := st.enqueueLog ++ [cleanP] }
  else st

/-- Result of one iteration of the internal-link crawl loop: the frontier was
empty (done), the loop continues, or an uncaught exception aborted the test. -/
inductive StepRes1 where
  | done (st : St1)
  | cont (st : St1)
  | abort (st : St1)
deriving Repr, DecidableEq

/-- One iteration of the while loop of the internal-link test: shift a path
off the frontier, skip it if already visited, otherwise mark it visited and
fetch it.  A thrown fetch is NOT caught in this pass and aborts the test; a
null response or non-200 status is recorded as broken and the loop continues;
a 200 response has its links classified. -/
def step1 (web : Web) (st : St1) : StepRes1 :=
  match st.toVisit with
  | [] => .done st
  | p :: rest =>
    if p ∈ st.visited then .cont { st with toVisit := rest }
    else
      let st1 : St1 := { st with
                           toVisit := rest, visited := st.visited ++ [p],
                           fetchCount := st.fetchCount + 1 }
      match fetchPage web p with
      | .thrown => .abort st1
      | .nullResp =>
        .cont { st1 with broken :=
          st1.broken ++ [⟨p, .error, (objGet st1.originMap p).getD "start"⟩] }
      | .resp s links =>
        if s = 200 then .cont (links.foldl (procHref1 p) st1)
        else .cont { st1 with broken :=
          st1.broken ++ [⟨p, .code s, (objGet st1.originMap p).getD "start"⟩] }

/-- Outcome of running the internal-link crawl to completion (or abort). -/
structure Crawl1Result where
  st : St1
  aborted : Bool
  fuelExhausted : Bool
deriving Repr, DecidableEq

/-- The internal-link crawl loop, fuelled: runs step1 until the frontier is
empty or an uncaught fetch exception aborts the test. -/
def crawl1 (web : Web) : Nat → St1 → Crawl1Result
  | 0, st => ⟨st, false, true⟩
  | fuel + 1, st =>
    match step1 web st with
    | .done st1 => ⟨st1, false, false⟩
    | .abort st1 => ⟨st1, true, false⟩
    | .cont st1 => crawl1 web fuel st1

/-- Initial crawl state: the frontier holds the root path only. -/
def initSt1 : St1 := ⟨[], ["/"], [], [], 0, ["/"]⟩

/-- Scan for an occurrence of sub at any position of the second list. -/
def includesGo (sub : List Char) : List Char → Bool
  | [] => sub.isEmpty
  | c :: cs => sub.isPrefixOf (c :: cs) || includesGo sub cs

/-- JS includes on strings: substring containment, used for the skip-domain
match against the hostname. -/
def includesB (s sub : String) : Bool := includesGo sub.data s.data

/-- State of the external-link crawl of links.spec.ts: the internal BFS
fields, the global external-link map (url to first foundOn), the skipped
links with reasons, and extSeen — ghost instrumentation logging every href
the external branch classified (after protocol-relative normalization),
paired with the page it occurred on. -/
structure St2 where
  visited : List String
  toVisit : List String
  externalLinks : Obj String
  skippedLinks : List (String × String)
  extSeen : List (String × String)
deriving Repr, DecidableEq

/-- The body of the external-link branch, from the normalized full URL on:
log the occurrence, try to extract the hostname (failure drops the href),
match it against the skip domains (the first key that is a substring records
the url once in skippedLinks with its reason) and otherwise record the url in
externalLinks if it is new, keeping its first origin. -/
def procExt (sd : Obj String) (hostnameOf : String → Option String)
    (currentPath fullUrl : String) (st : St2) : St2 :=
  let st1 : St2 := { st with extSeen := st.extSeen ++ [(fullUrl, currentPath)] }
  match hostnameOf fullUrl with
  | none => st1
  | some domain =>
    match sd.find? (fun kv => includesB domain kv.1) with
    | some kv =>
      if st1.skippedLinks.any (fun sk => decide (sk.1 = fullUrl)) then st1
      else { st1 with skippedLinks := st1.skippedLinks ++ [(fullUrl, kv.2)] }
    | none =>
      if (objGet st1.externalLinks fullUrl).isSome then st1
      else { st1 with externalLinks := st1.externalLinks ++ [(fullUrl, currentPath)] }

/-- Classification of one href in the external-link pass: internal hrefs are
enqueued exactly as in the first pass (without origin tracking); http, https
and protocol-relative hrefs are normalized (protocol-relative ones get the
https scheme) and handed to procExt.  Anything else is ignored. -/
def procHref2 (sd : Obj String) (hostnameOf : String → Option String)
    (currentPath : String) (st : St2) (href : String) : St2 :=
  if startsWithB href "/" && !(startsWithB href "//") then
    let cleanP := cleanPath href
    if cleanP ∈ st.visited ∨ cleanP ∈ st.toVisit then st
    else { st with toVisit := st.toVisit ++ [cleanP] }
  else if startsWithB href "http://" || startsWithB href "https://"
      || startsWithB href "//" then
    procExt sd hostnameOf currentPath
      (if startsWithB href "//" then "https:" ++ href else href) st
  else st

/-- One iteration of the crawl loop of the external-link test: here the fetch
is wrapped in try/catch, so a thrown fetch, a null response and a non-200
status all just continue with the page marked visited; none is recorded. -/
def step2 (web : Web) (sd : Obj String) (hostnameOf : String → Option String)
    (st : St2) : Option St2 :=
  match st.toVisit with
  | [] => none
  | p :: rest =>
    if p ∈ st.visited then some { st with toVisit := rest }
    else
      let st1 : St2 := { st with toVisit := rest, visited := st.visited ++ [p] }
      match fetchPage web p with
      | .thrown => some st1
      | .nullResp => some st1
      | .resp s links =>
        if s = 200 then some (links.foldl (procHref2 sd hostnameOf p) st1)
        else some st1

/-- The collection phase of the external-link test, fuelled. -/
def crawl2 (web : Web) (sd : Obj String) (hostnameOf : String → Option String) :
    Nat → St2 → St2
  | 0, st => st
  | fuel + 1, st =>
    match step2 web sd hostnameOf st with
    | none => st
    | some st1 => crawl2 web sd hostnameOf fuel st1

/-- Initial external-crawl state: the frontier holds the root path only. -/
def initSt2 : St2 := ⟨[], ["/"], [], [], []⟩

/-- One external-link check: issue a HEAD request; on 405 retry with GET and
use the GET status; any throw of either request is caught and becomes an
error result.  The oracles headReq and getReq return the response status or
none for a throw (network error or timeout). -/
def checkOne (headReq getReq : String → Option Nat) (url foundOn : String) : LinkResult :=
  match headReq url with
  | none => ⟨url, .error, foundOn⟩
  | some s =>
    if s = 405 then
      match getReq url with
      | none => ⟨url, .error, foundOn⟩
      | some g => ⟨url, .code g, foundOn⟩
    else ⟨url, .code s, foundOn⟩

/-- The broken filter of the external-link test: an error result or a final
status of at least 400 is broken; everything else (all 2xx and 3xx) is fine. -/
def isBroken (r : LinkResult) : Bool :=
  match r.status with
  | .error => true
  | .code n => decide (400 ≤ n)

/-- The batching for-loop, fuelled by the entry count: slices of five entries
from the front, in order. -/
def batchesGo {α : Type} : Nat → List α → List (List α)
  | 0, _ => []
  | _ + 1, [] => []
  | n + 1, x :: xs => ((x :: xs).take 5) :: batchesGo n ((x :: xs).drop 5)

/-- Slices of five entries in discovery order, as produced by the for-loop
with CONCURRENT_EXTERNAL_CHECKS = 5 over the deduplicated entries. -/
def batchesOf {α : Type} (l : List α) : List (List α) := batchesGo l.length l

/-- The external check phase: each batch is awaited in full (Promise.all over
at most five checks) before the next batch starts, and the batch results are
appended in order. -/
def checkExternal (headReq getReq : String → Option Nat) (entries : Obj String) :
    List LinkResult :=
  ((batchesOf entries).map (fun b => b.map (fun e => checkOne headReq getReq e.1 e.2))).flatten

/-- An external url is accepted for checking when its hostname extracts and
no configured skip domain is a substring of the hostname. -/
def acceptedB (sd : Obj String) (hostnameOf : String → Option String) (u : String) : Bool :=
  match hostnameOf u with
  | none => false
  | some domain => (sd.find? (fun kv => includesB domain kv.1)).isNone

/-- First-occurrence-wins deduplication of an association list, from a given
accumulator: a pair whose key is already bound is dropped. -/
def firstWinsFrom (acc : Obj String) : List (String × String) → Obj String
  | [] => acc
  | e :: rest =>
    firstWinsFrom (if (objGet acc e.1).isSome then acc else acc ++ [e]) rest

/-- First-occurrence-wins deduplication of an association list. -/
def firstWins (l : List (String × String)) : Obj String := firstWinsFrom [] l

theorem takeWhile_all_no_hash (l : List Char) (h : ∀ c ∈ l, c ≠ '#') :
    l.takeWhile (fun c => c != '#') = l := by
  induction l with
  | nil => rfl
  | cons c cs ih =>
    have hc : (c != '#') = true := by simpa using h c (List.mem_cons_self c cs)
    simp [List.takeWhile_cons, hc, ih (fun d hd => h d (List.mem_cons_of_mem c hd))]

theorem takeWhile_append_hash (l m : List Char) (h : ∀ c ∈ l, c ≠ '#') :
    (l ++ '#' :: m).takeWhile (fun c => c != '#') = l := by
  induction l with
  | nil => simp [List.takeWhile_cons]
  | cons c cs ih =>
    have hc : (c != '#') = true := by simpa using h c (List.mem_cons_self c cs)
    simp only [List.cons_append, List.takeWhile_cons, hc, if_true]
    rw [ih (fun d hd => h d (List.mem_cons_of_mem c hd))]

theorem cleanPath_append_hash (p f : String) (hp : ∀ c ∈ p.data, c ≠ '#') :
    cleanPath (p ++ "#" ++ f) = p := by
  have hd : (p ++ "#" ++ f).data = p.data ++ '#' :: f.data := by
    rw [String.data_append, String.data_append, List.append_assoc]
    rfl
  rw [cleanPath, hd, takeWhile_append_hash p.data f.data hp]

/-- C6: hrefs that differ only in their fragment suffix denote the same
internal path — classification strips everything from the first hash on —
while a query string is preserved, so a path with a query and the bare path
are distinct; concretely, a site whose root links to both is crawled with
three distinct fetches. -/
theorem c6_fragment_stripped_query_kept (p f1 f2 q : String)
    (hp : ∀ c ∈ p.data, c ≠ '#') (hq : ∀ c ∈ q.data, c ≠ '#') :
    cleanPath (p ++ "#" ++ f1) = p
    ∧ cleanPath (p ++ "#" ++ f1) = cleanPath (p ++ "#" ++ f2)
    ∧ cleanPath q = q
    ∧ (crawl1 [("/", .resp 200 ["/a?x=1", "/a"]), ("/a?x=1", .resp 200 []),
        ("/a", .resp 200 [])] 10 initSt1).st.visited = ["/", "/a?x=1", "/a"]
    ∧ (crawl1 [("/", .resp 200 ["/a?x=1", "/a"]), ("/a?x=1", .resp 200 []),
        ("/a", .resp 200 [])] 10 initSt1).st.fetchCount = 3 := by
  refine ⟨cleanPath_append_hash p f1 hp, ?_, ?_, by decide, by decide⟩
  · rw [cleanPath_append_hash p f1 hp, cleanPath_append_hash p f2 hp]
  · rw [cleanPath, takeWhile_all_no_hash q.data hq]

/-- C6 witness: the general statement applied at /a with fragments x and y and
the query path. -/
theorem c6_fragment_stripped_query_kept_witness :
    cleanPath ("/a" ++ "#" ++ "x") = "/a" ∧ cleanPath "/a?x=1" = "/a?x=1" := by
  have h := c6_fragment_stripped_query_kept "/a" "x" "y" "/a?x=1" (by decide) (by decide)
  exact ⟨h.1, h.2.2.1⟩

/-- C2 counterexample: a site whose root links to a page whose fetch throws
(timeout or DNS failure), run through both passes.  In the internal-link pass
the goto call is not wrapped in try/catch, so the crawl aborts with an empty
broken list — contradicting the claim that every fetch failure is caught per
page, recorded as a broken-link entry and the crawl continues, and the claim
that no single bad page aborts the overall crawl.  In the external-link pass
the same thrown fetch is caught and the crawl runs to completion (both pages
visited, frontier empty), but the failed page is recorded nowhere: the checked
map stays empty, so the check phase yields no result at all — contradicting
the claim that the failure is recorded as a broken-link entry. -/
theorem c2_uncaught_internal_fetch_counterexample :
    (crawl1 [("/", .resp 200 ["/bad"]), ("/bad", .thrown)] 10 initSt1).aborted = true
    ∧ (crawl1 [("/", .resp 200 ["/bad"]), ("/bad", .thrown)] 10 initSt1).st.broken = []
    ∧ (crawl2 [("/", .resp 200 ["/bad"]), ("/bad", .thrown)] [] (fun _ => none)
        10 initSt2).visited = ["/", "/bad"]
    ∧ (crawl2 [("/", .resp 200 ["/bad"]), ("/bad", .thrown)] [] (fun _ => none)
        10 initSt2).toVisit = []
    ∧ checkExternal (fun _ => some 200) (fun _ => some 200)
        (crawl2 [("/", .resp 200 ["/bad"]), ("/bad", .thrown)] [] (fun _ => none)
          10 initSt2).externalLinks = [] := by
  decide

/-- C2 (amended): in the internal-link pass, a fetch that returns a null
response or a non-200 status is recorded as a broken-link entry and the crawl
continues to the next frontier item, but a fetch that throws is NOT caught and
aborts the crawl; in the external-link pass the fetch sits inside try/catch,
so every page-fetch failure — thrown, null response or non-200 status — is
caught at per-page granularity and the crawl continues to the next frontier
item, with no broken-link entry recorded for the failed page. -/
theorem c2_amended_fetch_failure_handling :
    (∀ (web : Web) (st : St1) (p : String) (rest : List String),
      st.toVisit = p :: rest → p ∉ st.visited →
      ((fetchPage web p = .thrown →
          step1 web st = .abort ⟨st.visited ++ [p], rest, st.originMap, st.broken,
            st.fetchCount + 1, st.enqueueLog⟩)
        ∧ (fetchPage web p = .nullResp →
          step1 web st = .cont ⟨st.visited ++ [p], rest, st.originMap,
            st.broken ++ [⟨p, .error, (objGet st.originMap p).getD "start"⟩],
            st.fetchCount + 1, st.enqueueLog⟩)
        ∧ (∀ s links, fetchPage web p = .resp s links → s ≠ 200 →
          step1 web st = .cont ⟨st.visited ++ [p], rest, st.originMap,
            st.broken ++ [⟨p, .code s, (objGet st.originMap p).getD "start"⟩],
            st.fetchCount + 1, st.enqueueLog⟩)))
    ∧ (∀ (web : Web) (sd : Obj String) (hostnameOf : String → Option String)
        (st : St2) (p : String) (rest : List String),
      st.toVisit = p :: rest → p ∉ st.visited →
      ((fetchPage web p = .thrown →
          step2 web sd hostnameOf st =
            some ⟨st.visited ++ [p], rest, st.externalLinks, st.skippedLinks, st.extSeen⟩)
        ∧ (fetchPage web p = .nullResp →
          step2 web sd hostnameOf st =
            some ⟨st.visited ++ [p], rest, st.externalLinks, st.skippedLinks, st.extSeen⟩)
        ∧ (∀ s links, fetchPage web p = .resp s links → s ≠ 200 →
          step2 web sd hostnameOf st =
            some ⟨st.visited ++ [p], rest, st.externalLinks, st.skippedLinks,
              st.extSeen⟩))) := by
  constructor
  · intro web st p rest htv hnv
    obtain ⟨v, tv, om, br, fc, lg⟩ := st
    simp only at htv hnv
    subst htv
    refine ⟨?_, ?_, ?_⟩
    · intro hf; simp [step1, hnv, hf]
    · intro hf; simp [step1, hnv, hf]
    · intro s links hf hs; simp [step1, hnv, hf, hs]
  · intro web sd hostnameOf st p rest htv hnv
    obtain ⟨v, tv, el, sk, es⟩ := st
    simp only at htv hnv
    subst htv
    refine ⟨?_, ?_, ?_⟩
    · intro hf; simp [step2, hnv, hf]
    · intro hf; simp [step2, hnv, hf]
    · intro s links hf hs; simp [step2, hnv, hf, hs]

/-- C2 witness: the amended theorem applied to a one-page site whose root
fetch throws — the internal pass aborts at that page. -/
theorem c2_amended_fetch_failure_witness :
    step1 [("/", .thrown)] initSt1 = .abort ⟨["/"], [], [], [], 1, ["/"]⟩ := by
  have h := (c2_amended_fetch_failure_handling).1 [("/", .thrown)] initSt1 "/" [] rfl
    (by simp [initSt1])
  exact h.1 (by decide)

/-- C10: an href that starts with none of the prefixes the classifier looks
for (slash, hash, mailto, tel, javascript, http, https, protocol-relative) —
a relative link such as about.html — is ignored entirely by both crawl
passes: the classification step leaves the whole crawl state unchanged, so it
is never enqueued, never checked, never skipped with a reason and never
reported. -/
theorem c10_relative_hrefs_ignored (sd : Obj String) (hostnameOf : String → Option String)
    (currentPath href : String) (st1 : St1) (st2 : St2)
    (h1 : startsWithB href "/" = false) (h2 : startsWithB href "#" = false)
    (h3 : startsWithB href "mailto:" = false) (h4 : startsWithB href "tel:" = false)
    (h5 : startsWithB href "javascript:" = false)
    (h6 : startsWithB href "http://" = false) (h7 : startsWithB href "https://" = false)
    (h8 : startsWithB href "//" = false) :
    procHref1 currentPath st1 href = st1
    ∧ procHref2 sd hostnameOf currentPath st2 href = st2 := by
  constructor
  · simp [procHref1, h1, h2, h3, h4, h5]
  · simp [procHref2, h1, h6, h7, h8]

/-- C10 witness: the relative href about.html leaves both crawl states
unchanged. -/
theorem c10_relative_hrefs_ignored_witness :
    procHref1 "/" initSt1 "about.html" = initSt1
    ∧ procHref2 [] (fun _ => none) "/" initSt2 "about.html" = initSt2 :=
  c10_relative_hrefs_ignored [] (fun _ => none) "/" "about.html" initSt1 initSt2
    (by decide) (by decide) (by decide) (by decide) (by decide) (by decide)
    (by decide) (by decide)

/-- The loop invariant of the internal crawl: the enqueue log is exactly
visited ++ toVisit (the FIFO dequeue moves the frontier head to the back of
visited), the log has no duplicates, and the fetch count equals the number of
visited paths. -/
def crawlInv (st : St1) : Prop :=
  st.enqueueLog = st.visited ++ st.toVisit
  ∧ st.enqueueLog.Nodup
  ∧ st.fetchCount = st.visited.length

/-- The state carried by any step result. -/
def stepSt : StepRes1 → St1
  | .done st => st
  | .cont st => st
  | .abort st => st

theorem procHref1_frame (currentPath : String) (st : St1) (href : String) :
    (procHref1 currentPath st href).visited = st.visited
    ∧ (procHref1 currentPath st href).fetchCount = st.fetchCount
    ∧ (procHref1 currentPath st href).broken = st.broken := by
  simp only [procHref1]
  split
  next => exact ⟨rfl, rfl, rfl⟩
  next =>
    split
    next =>
      split
      next => exact ⟨rfl, rfl, rfl⟩
      next => exact ⟨rfl, rfl, rfl⟩
    next => exact ⟨rfl, rfl, rfl⟩

theorem procHref1_inv (currentPath : String) (st : St1) (href : String)
    (h : crawlInv st) : crawlInv (procHref1 currentPath st href) := by
  obtain ⟨hlog, hnd, hfc⟩ := h
  simp only [procHref1]
  split
  next => exact ⟨hlog, hnd, hfc⟩
  next =>
    split
    next =>
      split
      next => exact ⟨hlog, hnd, hfc⟩
      next hnotin =>
        have hcl : cleanPath href ∉ st.enqueueLog := by
          rw [hlog, List.mem_append]
          push_neg at hnotin
          rintro (hv | ht)
          · exact hnotin.1 hv
          · exact hnotin.2 ht
        refine ⟨?_, ?_, hfc⟩
        · simp only [hlog]
          rw [List.append_assoc]
        · rw [List.nodup_append]
          refine ⟨hnd, List.nodup_singleton _, ?_⟩
          intro a ha hb
          rw [List.mem_singleton] at hb
          subst hb
          exact hcl ha
    next => exact ⟨hlog, hnd, hfc⟩

theorem foldl_procHref1_frame (currentPath : String) (links : List String) (st : St1) :
    (links.foldl (procHref1 currentPath) st).visited = st.visited
    ∧ (links.foldl (procHref1 currentPath) st).fetchCount = st.fetchCount
    ∧ (links.foldl (procHref1 currentPath) st).broken = st.broken := by
  induction links generalizing st with
  | nil => exact ⟨rfl, rfl, rfl⟩
  | cons l ls ih =>
    obtain ⟨ha, hb, hc⟩ := ih (procHref1 currentPath st l)
    obtain ⟨hd, he, hf⟩ := procHref1_frame currentPath st l
    exact ⟨by rw [List.foldl_cons, ha, hd], by rw [List.foldl_cons, hb, he],
      by rw [List.foldl_cons, hc, hf]⟩

theorem foldl_procHref1_inv (currentPath : String) (links : List String) (st : St1)
    (h : crawlInv st) : crawlInv (links.foldl (procHref1 currentPath) st) := by
  induction links generalizing st with
  | nil => exact h
  | cons l ls ih =>
    rw [List.foldl_cons]
    exact ih (procHref1 currentPath st l) (procHref1_inv currentPath st l h)

theorem step1_inv (web : Web) (st : St1) (h : crawlInv st) :
    crawlInv (stepSt (step1 web st)) := by
  obtain ⟨hlog, hnd, hfc⟩ := h
  obtain ⟨v, tv, om, br, fc, lg⟩ := st
  simp only at hlog hnd hfc
  cases tv with
  | nil => exact ⟨hlog, hnd, hfc⟩
  | cons p rest =>
    by_cases hpv : p ∈ v
    · exfalso
      rw [hlog, List.nodup_append] at hnd
      exact hnd.2.2 hpv (List.mem_cons_self p rest)
    · have hlog2 : lg = (v ++ [p]) ++ rest := by rw [hlog, List.append_assoc]; rfl
      have hfc2 : fc + 1 = (v ++ [p]).length := by simp [hfc]
      simp only [step1, if_neg hpv]
      cases hfo : fetchPage web p with
      | thrown => exact ⟨hlog2, hnd, hfc2⟩
      | nullResp => exact ⟨hlog2, hnd, hfc2⟩
      | resp s links =>
        by_cases hs : s = 200
        · subst hs
          simp only [if_pos rfl, stepSt]
          exact foldl_procHref1_inv p links ⟨v ++ [p], rest, om, br, fc + 1, lg⟩
            ⟨hlog2, hnd, hfc2⟩
        · simp only [if_neg hs, stepSt]
          exact ⟨hlog2, hnd, hfc2⟩

theorem step1_visited_grows (web : Web) (st : St1) :
    ∃ t, (stepSt (step1 web st)).visited = st.visited ++ t := by
  obtain ⟨v, tv, om, br, fc, lg⟩ := st
  cases tv with
  | nil => exact ⟨[], by simp [step1, stepSt]⟩
  | cons p rest =>
    by_cases hpv : p ∈ v
    · exact ⟨[], by simp [step1, hpv, stepSt]⟩
    · cases hfo : fetchPage web p with
      | thrown => exact ⟨[p], by simp [step1, hpv, hfo, stepSt]⟩
      | nullResp => exact ⟨[p], by simp [step1, hpv, hfo, stepSt]⟩
      | resp s links =>
        by_cases hs : s = 200
        · subst hs
          refine ⟨[p], ?_⟩
          simp only [step1, if_neg hpv, hfo, if_pos rfl, stepSt]
          exact (foldl_procHref1_frame p links ⟨v ++ [p], rest, om, br, fc + 1, lg⟩).1
        · exact ⟨[p], by simp [step1, hpv, hfo, hs, stepSt]⟩

theorem crawl1_inv (web : Web) (fuel : Nat) (st : St1) (h : crawlInv st) :
    crawlInv (crawl1 web fuel st).st := by
  induction fuel generalizing st with
  | zero => exact h
  | succ n ih =>
    have hstep := step1_inv web st h
    simp only [crawl1]
    cases hcase : step1 web st with
    | done st1 =>
      rw [hcase] at hstep
      simp only [stepSt] at hstep
      exact hstep
    | abort st1 =>
      rw [hcase] at hstep
      simp only [stepSt] at hstep
      exact hstep
    | cont st1 =>
      rw [hcase] at hstep
      simp only [stepSt] at hstep
      exact ih st1 hstep

theorem crawl1_visited_grows (web : Web) (fuel : Nat) (st : St1) :
    ∃ t, (crawl1 web fuel st).st.visited = st.visited ++ t := by
  induction fuel generalizing st with
  | zero => exact ⟨[], by simp [crawl1]⟩
  | succ n ih =>
    obtain ⟨t1, ht1⟩ := step1_visited_grows web st
    simp only [crawl1]
    cases hcase : step1 web st with
    | done st1 =>
      rw [hcase] at ht1
      simp only [stepSt] at ht1
      exact ⟨t1, ht1⟩
    | abort st1 =>
      rw [hcase] at ht1
      simp only [stepSt] at ht1
      exact ⟨t1, ht1⟩
    | cont st1 =>
      rw [hcase] at ht1
      simp only [stepSt] at ht1
      obtain ⟨t2, ht2⟩ := ih st1
      exact ⟨t1 ++ t2, by rw [ht2, ht1, List.append_assoc]⟩

/-- C3: in every internal crawl run, the visited list only grows across the
whole loop; starting from the initial state, the enqueue log — every path
that ever entered the frontier — has no duplicates (each internal path enters
the frontier at most once), the visited list has no duplicates (each path is
fetched at most once), and the fetch-call count equals the number of visited
paths. -/
theorem c3_frontier_once_visited_grows_fetch_once :
    (∀ (web : Web) (fuel : Nat) (st : St1),
      ∃ t, (crawl1 web fuel st).st.visited = st.visited ++ t)
    ∧ (∀ (web : Web) (fuel : Nat),
      ((crawl1 web fuel initSt1).st.enqueueLog).Nodup
      ∧ ((crawl1 web fuel initSt1).st.visited).Nodup
      ∧ (crawl1 web fuel initSt1).st.fetchCount
        = (crawl1 web fuel initSt1).st.visited.length) := by
  constructor
  · exact crawl1_visited_grows
  · intro web fuel
    have h0 : crawlInv initSt1 := ⟨rfl, by simp [initSt1], rfl⟩
    obtain ⟨hlog, hnd, hfc⟩ := crawl1_inv web fuel initSt1 h0
    refine ⟨hnd, ?_, hfc⟩
    rw [hlog, List.nodup_append] at hnd
    exact hnd.1

/-- C5: the external check first issues a HEAD request; exactly when the HEAD
status is 405 the GET status becomes the result; a check is classified broken
if and only if the request errored or the final status is at least 400, and
every final status below 400 (all 2xx and 3xx) is acceptable. -/
theorem c5_head_then_get_broken_iff (headReq getReq : String → Option Nat)
    (url foundOn : String) :
    (isBroken (checkOne headReq getReq url foundOn) = true ↔
      headReq url = none
      ∨ (∃ s, headReq url = some s ∧ s ≠ 405 ∧ 400 ≤ s)
      ∨ (headReq url = some 405
          ∧ (getReq url = none ∨ ∃ g, getReq url = some g ∧ 400 ≤ g)))
    ∧ (∀ s, headReq url = some s → s ≠ 405 →
        checkOne headReq getReq url foundOn = ⟨url, .code s, foundOn⟩)
    ∧ (headReq url = some 405 → ∀ g, getReq url = some g →
        checkOne headReq getReq url foundOn = ⟨url, .code g, foundOn⟩)
    ∧ (∀ n, 200 ≤ n → n < 400 →
        isBroken (⟨url, .code n, foundOn⟩ : LinkResult) = false) := by
  refine ⟨?_, ?_, ?_, ?_⟩
  · cases hh : headReq url with
    | none => simp [checkOne, isBroken, hh]
    | some s =>
      by_cases hs : s = 405
      · subst hs
        cases hg : getReq url with
        | none => simp [checkOne, isBroken, hh, hg]
        | some g => simp [checkOne, isBroken, hh, hg]
      · simp only [checkOne, hh, if_neg hs, isBroken]
        simp [hs]
  · intro s hh hs
    simp [checkOne, hh, hs]
  · intro hh g hg
    simp [checkOne, hh, hg]
  · intro n h1 h2
    simp only [isBroken, decide_eq_false_iff_not]
    omega

/-- C5 witness: a HEAD answering 405 followed by a GET answering 200 yields an
acceptable (non-broken) 200 result. -/
theorem c5_head_then_get_broken_iff_witness :
    checkOne (fun _ => some 405) (fun _ => some 200) "https://x.example/" "/"
      = ⟨"https://x.example/", .code 200, "/"⟩
    ∧ isBroken (⟨"https://x.example/", .code 200, "/"⟩ : LinkResult) = false := by
  have h := c5_head_then_get_broken_iff (fun _ => some 405) (fun _ => some 200)
    "https://x.example/" "/"
  exact ⟨h.2.2.1 rfl 200 rfl, h.2.2.2 200 (by omega) (by omega)⟩

theorem checkOne_url (headReq getReq : String → Option Nat) (u f : String) :
    (checkOne headReq getReq u f).url = u := by
  unfold checkOne
  cases headReq u with
  | none => rfl
  | some s =>
    by_cases hs : s = 405
    · subst hs
      simp only [if_pos rfl]
      cases getReq u <;> rfl
    · simp only [if_neg hs]

theorem batchesGo_nil {α : Type} (n : Nat) : batchesGo n ([] : List α) = [] := by
  cases n <;> rfl

theorem batchesGo_flatten {α : Type} (n : Nat) (l : List α) (h : l.length ≤ n) :
    (batchesGo n l).flatten = l := by
  induction n generalizing l with
  | zero =>
    have hl : l = [] := List.eq_nil_of_length_eq_zero (Nat.le_zero.mp h)
    subst hl
    rfl
  | succ m ih =>
    cases l with
    | nil => rfl
    | cons x xs =>
      simp only [batchesGo, List.flatten_cons]
      rw [ih ((x :: xs).drop 5) (by simp at h ⊢; omega)]
      exact List.take_append_drop 5 (x :: xs)

theorem batchesGo_size {α : Type} (n : Nat) (l : List α) :
    ∀ b ∈ batchesGo n l, b.length ≤ 5 ∧ b ≠ [] := by
  induction n generalizing l with
  | zero => simp [batchesGo]
  | succ m ih =>
    cases l with
    | nil => simp [batchesGo_nil]
    | cons x xs =>
      intro b hb
      simp only [batchesGo, List.mem_cons] at hb
      rcases hb with rfl | hb
      · exact ⟨List.length_take_le 5 (x :: xs), by simp⟩
      · exact ih _ b hb

theorem batchesGo_full {α : Type} (n : Nat) (l : List α) (h : l.length ≤ n) :
    ∀ b ∈ (batchesGo n l).dropLast, b.length = 5 := by
  induction n generalizing l with
  | zero =>
    have hl : l = [] := List.eq_nil_of_length_eq_zero (Nat.le_zero.mp h)
    subst hl
    intro b hb
    simp [batchesGo] at hb
  | succ m ih =>
    cases l with
    | nil => simp [batchesGo_nil]
    | cons x xs =>
      simp only [batchesGo]
      cases hrec : batchesGo m ((x :: xs).drop 5) with
      | nil => simp
      | cons y ys =>
        intro b hb
        rw [List.dropLast_cons₂] at hb
        rcases List.mem_cons.mp hb with rfl | hb2
        · have hd : (x :: xs).drop 5 ≠ [] := by
            intro hh
            rw [hh, batchesGo_nil] at hrec
            cases hrec
          have hlen : 5 < (x :: xs).length := by
            by_contra hcon
            exact hd (List.drop_eq_nil_of_le (by omega))
          rw [List.length_take]
          simp only [List.length_cons] at hlen ⊢
          omega
        · have := ih ((x :: xs).drop 5)
            (by rw [List.length_drop]; simp only [List.length_cons] at h ⊢; omega)
          rw [hrec] at this
          exact this b hb2

theorem checkExternal_flatten_urls (headReq getReq : String → Option Nat)
    (bs : List (List (String × String))) :
    (((bs.map (fun b => b.map (fun e => checkOne headReq getReq e.1 e.2))).flatten).map
        (fun r => r.url))
      = bs.flatten.map Prod.fst := by
  induction bs with
  | nil => rfl
  | cons b rest ih =>
    simp only [List.map_cons, List.flatten_cons, List.map_append, ih]
    congr 1
    simp [List.map_map, Function.comp, checkOne_url]

theorem checkExternal_urls (headReq getReq : String → Option Nat) (entries : Obj String) :
    (checkExternal headReq getReq entries).map (fun r => r.url) = entries.map Prod.fst := by
  unfold checkExternal
  rw [checkExternal_flatten_urls]
  rw [show batchesOf entries = batchesGo entries.length entries from rfl]
  rw [batchesGo_flatten entries.length entries (Nat.le_refl _)]

/-- The invariant tying the external collections together: every url in
externalLinks has a hostname with no skip-domain match; every skippedLinks
entry carries the reason of the first matching skip domain of its hostname;
and every logged external occurrence whose hostname matches a skip domain is
present in skippedLinks with that reason. -/
def extInv (sd : Obj String) (hostnameOf : String → Option String) (st : St2) : Prop :=
  (∀ u p, (u, p) ∈ st.externalLinks →
    ∃ d, hostnameOf u = some d ∧ sd.find? (fun kv => includesB d kv.1) = none)
  ∧ (∀ u r, (u, r) ∈ st.skippedLinks →
    ∃ d kv, hostnameOf u = some d
      ∧ sd.find? (fun kv2 => includesB d kv2.1) = some kv ∧ r = kv.2)
  ∧ (∀ u p, (u, p) ∈ st.extSeen → ∀ d kv, hostnameOf u = some d →
    sd.find? (fun kv2 => includesB d kv2.1) = some kv → (u, kv.2) ∈ st.skippedLinks)

theorem procExt_extInv (sd : Obj String) (hostnameOf : String → Option String)
    (currentPath fullUrl : String) (st : St2) (h : extInv sd hostnameOf st) :
    extInv sd hostnameOf (procExt sd hostnameOf currentPath fullUrl st) := by
  obtain ⟨h1, h2, h3⟩ := h
  simp only [procExt]
  split
  next hh =>
    refine ⟨h1, h2, ?_⟩
    intro u p hu d kv hdom hfind
    rcases List.mem_append.mp hu with hu | hu
    · exact h3 u p hu d kv hdom hfind
    · rw [List.mem_singleton, Prod.mk.injEq] at hu
      obtain ⟨rfl, rfl⟩ := hu
      rw [hh] at hdom
      cases hdom
  next domain hh =>
    split
    next kv0 hf =>
      split
      next hany =>
        refine ⟨h1, h2, ?_⟩
        intro u p hu d kv hdom hfind
        rcases List.mem_append.mp hu with hu | hu
        · exact h3 u p hu d kv hdom hfind
        · rw [List.mem_singleton, Prod.mk.injEq] at hu
          obtain ⟨rfl, rfl⟩ := hu
          rw [hh] at hdom
          obtain rfl : domain = d := by cases hdom; rfl
          rw [hf] at hfind
          obtain rfl : kv0 = kv := by cases hfind; rfl
          obtain ⟨sk, hsk, hsk1⟩ := List.any_eq_true.mp hany
          have hsk1e : sk.1 = u := of_decide_eq_true hsk1
          have heq : (u, sk.2) = sk := by rw [← hsk1e]
          obtain ⟨d2, kv2, hdom2, hfind2, hr2⟩ := h2 u sk.2 (heq ▸ hsk)
          rw [hh] at hdom2
          obtain rfl : domain = d2 := by cases hdom2; rfl
          rw [hf] at hfind2
          obtain rfl : kv0 = kv2 := by cases hfind2; rfl
          rw [← hr2]
          exact heq ▸ hsk
      next hany =>
        refine ⟨h1, ?_, ?_⟩
        · intro u r hu
          rcases List.mem_append.mp hu with hu | hu
          · exact h2 u r hu
          · rw [List.mem_singleton, Prod.mk.injEq] at hu
            obtain ⟨rfl, rfl⟩ := hu
            exact ⟨domain, kv0, hh, hf, rfl⟩
        · intro u p hu d kv hdom hfind
          rcases List.mem_append.mp hu with hu | hu
          · exact List.mem_append_left _ (h3 u p hu d kv hdom hfind)
          · rw [List.mem_singleton, Prod.mk.injEq] at hu
            obtain ⟨rfl, rfl⟩ := hu
            rw [hh] at hdom
            obtain rfl : domain = d := by cases hdom; rfl
            rw [hf] at hfind
            obtain rfl : kv0 = kv := by cases hfind; rfl
            exact List.mem_append_right _ (List.mem_singleton.mpr rfl)
    next hf =>
      split
      next hsome =>
        refine ⟨h1, h2, ?_⟩
        intro u p hu d kv hdom hfind
        rcases List.mem_append.mp hu with hu | hu
        · exact h3 u p hu d kv hdom hfind
        · rw [List.mem_singleton, Prod.mk.injEq] at hu
          obtain ⟨rfl, rfl⟩ := hu
          rw [hh] at hdom
          obtain rfl : domain = d := by cases hdom; rfl
          rw [hf] at hfind
          cases hfind
      next hsome =>
        refine ⟨?_, h2, ?_⟩
        · intro u p hu
          rcases List.mem_append.mp hu with hu | hu
          · exact h1 u p hu
          · rw [List.mem_singleton, Prod.mk.injEq] at hu
            obtain ⟨rfl, rfl⟩ := hu
            exact ⟨domain, hh, hf⟩
        · intro u p hu d kv hdom hfind
          rcases List.mem_append.mp hu with hu | hu
          · exact h3 u p hu d kv hdom hfind
          · rw [List.mem_singleton, Prod.mk.injEq] at hu
            obtain ⟨rfl, rfl⟩ := hu
            rw [hh] at hdom
            obtain rfl : domain = d := by cases hdom; rfl
            rw [hf] at hfind
            cases hfind

theorem procHref2_extInv (sd : Obj String) (hostnameOf : String → Option String)
    (currentPath : String) (st : St2) (href : String) (h : extInv sd hostnameOf st) :
    extInv sd hostnameOf (procHref2 sd hostnameOf currentPath st href) := by
  simp only [procHref2]
  split
  next =>
    split
    next => exact h
    next => exact h
  next =>
    split
    next => exact procExt_extInv sd hostnameOf currentPath _ st h
    next => exact h

theorem foldl_procHref2_extInv (sd : Obj String) (hostnameOf : String → Option String)
    (currentPath : String) (links : List String) (st : St2) (h : extInv sd hostnameOf st) :
    extInv sd hostnameOf (links.foldl (procHref2 sd hostnameOf currentPath) st) := by
  induction links generalizing st with
  | nil => exact h
  | cons l ls ih =>
    rw [List.foldl_cons]
    exact ih _ (procHref2_extInv sd hostnameOf currentPath st l h)

theorem step2_extInv (web : Web) (sd : Obj String) (hostnameOf : String → Option String)
    (st st1 : St2) (hstep : step2 web sd hostnameOf st = some st1)
    (h : extInv sd hostnameOf st) : extInv sd hostnameOf st1 := by
  obtain ⟨v, tv, el, sk, es⟩ := st
  cases tv with
  | nil => simp [step2] at hstep
  | cons p rest =>
    by_cases hpv : p ∈ v
    · simp only [step2, if_pos hpv] at hstep
      obtain rfl : _ = st1 := Option.some.inj hstep
      exact h
    · simp only [step2, if_neg hpv] at hstep
      split at hstep
      next =>
        obtain rfl : _ = st1 := Option.some.inj hstep
        exact h
      next =>
        obtain rfl : _ = st1 := Option.some.inj hstep
        exact h
      next s links hfo =>
        split at hstep
        next =>
          obtain rfl : _ = st1 := Option.some.inj hstep
          exact foldl_procHref2_extInv sd hostnameOf p links _ h
        next =>
          obtain rfl : _ = st1 := Option.some.inj hstep
          exact h

theorem crawl2_extInv (web : Web) (sd : Obj String) (hostnameOf : String → Option String)
    (fuel : Nat) (st : St2) (h : extInv sd hostnameOf st) :
    extInv sd hostnameOf (crawl2 web sd hostnameOf fuel st) := by
  induction fuel generalizing st with
  | zero => exact h
  | succ n ih =>
    simp only [crawl2]
    cases hstep : step2 web sd hostnameOf st with
    | none => exact h
    | some st1 => exact ih st1 (step2_extInv web sd hostnameOf st st1 hstep h)

theorem checkExternal_mem_entries (headReq getReq : String → Option Nat)
    (entries : Obj String) (r : LinkResult)
    (hr : r ∈ checkExternal headReq getReq entries) : ∃ fo, (r.url, fo) ∈ entries := by
  unfold checkExternal at hr
  rw [List.mem_flatten] at hr
  obtain ⟨batchR, hbR, hrb⟩ := hr
  rw [List.mem_map] at hbR
  obtain ⟨batch, hbatch, rfl⟩ := hbR
  rw [List.mem_map] at hrb
  obtain ⟨e, he, rfl⟩ := hrb
  refine ⟨e.2, ?_⟩
  rw [checkOne_url]
  have hm : e ∈ (batchesOf entries).flatten := List.mem_flatten.mpr ⟨batch, hbatch, he⟩
  rw [show batchesOf entries = batchesGo entries.length entries from rfl,
    batchesGo_flatten entries.length entries (Nat.le_refl _)] at hm
  simpa using hm

/-- C4: every external URL discovered during the crawl whose hostname contains
a configured skip-domain substring is recorded in skippedExternal with that
domain's configured reason and never appears in the checked external-link map
— so no check result ever carries it; and an external href whose URL fails to
parse (no hostname) is silently dropped: it is never checked and never
recorded as skipped. -/
theorem c4_skip_domains_and_invalid_urls (web : Web) (sd : Obj String)
    (hostnameOf : String → Option String) (fuel : Nat) (u p : String)
    (hseen : (u, p) ∈ (crawl2 web sd hostnameOf fuel initSt2).extSeen) :
    (hostnameOf u = none →
      objGet (crawl2 web sd hostnameOf fuel initSt2).externalLinks u = none
      ∧ (∀ r, (u, r) ∉ (crawl2 web sd hostnameOf fuel initSt2).skippedLinks))
    ∧ (∀ d kv, hostnameOf u = some d →
        sd.find? (fun kv2 => includesB d kv2.1) = some kv →
        ((u, kv.2) ∈ (crawl2 web sd hostnameOf fuel initSt2).skippedLinks
          ∧ objGet (crawl2 web sd hostnameOf fuel initSt2).externalLinks u = none
          ∧ ∀ (headReq getReq : String → Option Nat) (r : LinkResult),
              r ∈ checkExternal headReq getReq
                (crawl2 web sd hostnameOf fuel initSt2).externalLinks → r.url ≠ u)) := by
  have h0 : extInv sd hostnameOf initSt2 :=
    ⟨fun u0 p0 hu0 => absurd hu0 (by simp [initSt2]),
     fun u0 r0 hu0 => absurd hu0 (by simp [initSt2]),
     fun u0 p0 hu0 => absurd hu0 (by simp [initSt2])⟩
  obtain ⟨h1, h2, h3⟩ := crawl2_extInv web sd hostnameOf fuel initSt2 h0
  constructor
  · intro hnone
    constructor
    · cases hopt : objGet (crawl2 web sd hostnameOf fuel initSt2).externalLinks u with
      | none => rfl
      | some q =>
        obtain ⟨d, hd, -⟩ := h1 u q (objGet_eq_some_mem hopt)
        rw [hnone] at hd
        cases hd
    · intro r hr
      obtain ⟨d, kv, hd, -, -⟩ := h2 u r hr
      rw [hnone] at hd
      cases hd
  · intro d kv hd hfind
    refine ⟨h3 u p hseen d kv hd hfind, ?_, ?_⟩
    · cases hopt : objGet (crawl2 web sd hostnameOf fuel initSt2).externalLinks u with
      | none => rfl
      | some q =>
        obtain ⟨d2, hd2, hnone2⟩ := h1 u q (objGet_eq_some_mem hopt)
        rw [hd] at hd2
        obtain rfl : d = d2 := by cases hd2; rfl
        rw [hfind] at hnone2
        cases hnone2
    · intro headReq getReq r hr hru
      obtain ⟨fo, hfo⟩ := checkExternal_mem_entries headReq getReq _ r hr
      rw [hru] at hfo
      obtain ⟨d2, hd2, hnone2⟩ := h1 u fo hfo
      rw [hd] at hd2
      obtain rfl : d = d2 := by cases hd2; rfl
      rw [hfind] at hnone2
      cases hnone2

/-- C4 witness: a page linking to an archive.org URL with archive.org
configured as a skip domain — the URL lands in skippedLinks with the
configured reason and is absent from the checked map. -/
theorem c4_skip_domains_witness :
    ("https://web.archive.org/x", "rate-limited")
        ∈ (crawl2 [("/", .resp 200 ["https://web.archive.org/x"])]
            [("archive.org", "rate-limited")]
            (fun u => if u = "https://web.archive.org/x" then some "web.archive.org" else none)
            10 initSt2).skippedLinks
    ∧ objGet (crawl2 [("/", .resp 200 ["https://web.archive.org/x"])]
            [("archive.org", "rate-limited")]
            (fun u => if u = "https://web.archive.org/x" then some "web.archive.org" else none)
            10 initSt2).externalLinks "https://web.archive.org/x" = none := by
  have h := c4_skip_domains_and_invalid_urls
    [("/", .resp 200 ["https://web.archive.org/x"])]
    [("archive.org", "rate-limited")]
    (fun u => if u = "https://web.archive.org/x" then some "web.archive.org" else none)
    10 "https://web.archive.org/x" "/" (by decide)
  have h2 := h.2 "web.archive.org" ("archive.org", "rate-limited") (by decide) (by decide)
  exact ⟨h2.1, h2.2.1⟩

theorem objGet_append {α : Type} (a b : Obj α) (k : String) :
    objGet (a ++ b) k = match objGet a k with
      | some v => some v
      | none => objGet b k := by
  induction a with
  | nil => simp [objGet]
  | cons hd tl ih =>
    obtain ⟨k0, v0⟩ := hd
    by_cases h : k0 = k
    · simp [objGet, h]
    · simp [objGet, h, ih]

theorem firstWinsFrom_append (acc : Obj String) (l1 l2 : List (String × String)) :
    firstWinsFrom acc (l1 ++ l2) = firstWinsFrom (firstWinsFrom acc l1) l2 := by
  induction l1 generalizing acc with
  | nil => rfl
  | cons e rest ih =>
    simp only [List.cons_append, firstWinsFrom]
    exact ih _

theorem firstWins_snoc (l : List (String × String)) (e : String × String) :
    firstWins (l ++ [e]) =
      if (objGet (firstWins l) e.1).isSome then firstWins l
      else firstWins l ++ [e] := by
  rw [firstWins, firstWinsFrom_append]
  rfl

theorem firstWinsFrom_objGet (l : List (String × String)) (acc : Obj String) (u : String) :
    objGet (firstWinsFrom acc l) u =
      match objGet acc u with
      | some v => some v
      | none => (l.find? (fun e => decide (e.1 = u))).map Prod.snd := by
  induction l generalizing acc with
  | nil => cases h : objGet acc u <;> simp [firstWinsFrom, h]
  | cons e rest ih =>
    simp only [firstWinsFrom]
    rw [ih]
    by_cases hsome : (objGet acc e.1).isSome = true
    · rw [if_pos hsome]
      cases hau : objGet acc u with
      | some v => rfl
      | none =>
        by_cases heu : e.1 = u
        · exfalso
          rw [heu, hau] at hsome
          cases hsome
        · simp [List.find?_cons, heu]
    · rw [if_neg hsome]
      cases hau : objGet acc u with
      | some v =>
        have : objGet (acc ++ [e]) u = some v := by
          rw [objGet_append, hau]
        rw [this]
      | none =>
        by_cases heu : e.1 = u
        · have : objGet (acc ++ [e]) u = some e.2 := by
            rw [objGet_append, hau]
            simp [objGet, heu]
          rw [this]
          simp [List.find?_cons, heu]
        · have : objGet (acc ++ [e]) u = none := by
            rw [objGet_append, hau]
            simp [objGet, heu]
          rw [this]
          simp [List.find?_cons, heu]

theorem firstWins_objGet (l : List (String × String)) (u : String) :
    objGet (firstWins l) u = (l.find? (fun e => decide (e.1 = u))).map Prod.snd := by
  rw [firstWins, firstWinsFrom_objGet]
  rfl

/-- The deduplication invariant of the external crawl: the checked map is
exactly the first-occurrence-wins deduplication of the accepted entries of the
discovery log, so the first-found origin of every url wins. -/
def dedupInv (sd : Obj String) (hostnameOf : String → Option String) (st : St2) : Prop :=
  st.externalLinks =
    firstWins (st.extSeen.filter (fun e => acceptedB sd hostnameOf e.1))

theorem procExt_dedupInv (sd : Obj String) (hostnameOf : String → Option String)
    (currentPath fullUrl : String) (st : St2) (h : dedupInv sd hostnameOf st) :
    dedupInv sd hostnameOf (procExt sd hostnameOf currentPath fullUrl st) := by
  unfold dedupInv at h ⊢
  simp only [procExt]
  split
  next hh =>
    have hacc : acceptedB sd hostnameOf fullUrl = false := by simp [acceptedB, hh]
    simp only [List.filter_append, List.filter_cons, List.filter_nil, hacc,
      Bool.false_eq_true, if_false, List.append_nil]
    exact h
  next domain hh =>
    split
    next kv0 hf =>
      have hacc : acceptedB sd hostnameOf fullUrl = false := by
        simp [acceptedB, hh, hf]
      split
      next =>
        simp only [List.filter_append, List.filter_cons, List.filter_nil, hacc,
          Bool.false_eq_true, if_false, List.append_nil]
        exact h
      next =>
        simp only [List.filter_append, List.filter_cons, List.filter_nil, hacc,
          Bool.false_eq_true, if_false, List.append_nil]
        exact h
    next hf =>
      have hacc : acceptedB sd hostnameOf fullUrl = true := by
        simp [acceptedB, hh, hf]
      split
      next hsome =>
        simp only [List.filter_append, List.filter_cons, List.filter_nil, hacc, if_true]
        rw [firstWins_snoc, ← h]
        rw [if_pos hsome]
      next hsome =>
        simp only [List.filter_append, List.filter_cons, List.filter_nil, hacc, if_true]
        rw [firstWins_snoc, ← h]
        rw [if_neg hsome]

theorem procHref2_dedupInv (sd : Obj String) (hostnameOf : String → Option String)
    (currentPath : String) (st : St2) (href : String) (h : dedupInv sd hostnameOf st) :
    dedupInv sd hostnameOf (procHref2 sd hostnameOf currentPath st href) := by
  simp only [procHref2]
  split
  next =>
    split
    next => exact h
    next => exact h
  next =>
    split
    next => exact procExt_dedupInv sd hostnameOf currentPath _ st h
    next => exact h

theorem foldl_procHref2_dedupInv (sd : Obj String) (hostnameOf : String → Option String)
    (currentPath : String) (links : List String) (st : St2) (h : dedupInv sd hostnameOf st) :
    dedupInv sd hostnameOf (links.foldl (procHref2 sd hostnameOf currentPath) st) := by
  induction links generalizing st with
  | nil => exact h
  | cons l ls ih =>
    rw [List.foldl_cons]
    exact ih _ (procHref2_dedupInv sd hostnameOf currentPath st l h)

theorem step2_dedupInv (web : Web) (sd : Obj String) (hostnameOf : String → Option String)
    (st st1 : St2) (hstep : step2 web sd hostnameOf st = some st1)
    (h : dedupInv sd hostnameOf st) : dedupInv sd hostnameOf st1 := by
  obtain ⟨v, tv, el, sk, es⟩ := st
  cases tv with
  | nil => simp [step2] at hstep
  | cons p rest =>
    by_cases hpv : p ∈ v
    · simp only [step2, if_pos hpv] at hstep
      obtain rfl : _ = st1 := Option.some.inj hstep
      exact h
    · simp only [step2, if_neg hpv] at hstep
      split at hstep
      next =>
        obtain rfl : _ = st1 := Option.some.inj hstep
        exact h
      next =>
        obtain rfl : _ = st1 := Option.some.inj hstep
        exact h
      next s links hfo =>
        split at hstep
        next =>
          obtain rfl : _ = st1 := Option.some.inj hstep
          exact foldl_procHref2_dedupInv sd hostnameOf p links _ h
        next =>
          obtain rfl : _ = st1 := Option.some.inj hstep
          exact h

theorem crawl2_dedupInv (web : Web) (sd : Obj String) (hostnameOf : String → Option String)
    (fuel : Nat) (st : St2) (h : dedupInv sd hostnameOf st) :
    dedupInv sd hostnameOf (crawl2 web sd hostnameOf fuel st) := by
  induction fuel generalizing st with
  | zero => exact h
  | succ n ih =>
    simp only [crawl2]
    cases hstep : step2 web sd hostnameOf st with
    | none => exact h
    | some st1 => exact ih st1 (step2_dedupInv web sd hostnameOf st st1 hstep h)

/-- C7: external URLs are deduplicated globally with the first-found origin
winning — the checked map binds every url to the foundOn page of its first
accepted occurrence in the discovery log — and the checks run over the entries
in discovery order in slices of five: the batches concatenate back to the
entry list, every batch has between one and five checks, every batch except
possibly the last has exactly five, the result list is exactly the ordered
concatenation of the fully-computed batch results, and every entry produces
exactly one result in order. -/
theorem c7_dedup_first_wins_and_batches :
    (∀ (web : Web) (sd : Obj String) (hostnameOf : String → Option String) (fuel : Nat)
        (u : String),
      objGet (crawl2 web sd hostnameOf fuel initSt2).externalLinks u =
        (((crawl2 web sd hostnameOf fuel initSt2).extSeen.filter
            (fun e => acceptedB sd hostnameOf e.1)).find?
          (fun e => decide (e.1 = u))).map Prod.snd)
    ∧ (∀ (entries : Obj String) (headReq getReq : String → Option Nat),
        (batchesOf entries).flatten = entries
        ∧ (∀ b ∈ batchesOf entries, b.length ≤ 5 ∧ b ≠ [])
        ∧ (∀ b ∈ (batchesOf entries).dropLast, b.length = 5)
        ∧ checkExternal headReq getReq entries
            = ((batchesOf entries).map
                (fun b => b.map (fun e => checkOne headReq getReq e.1 e.2))).flatten
        ∧ (checkExternal headReq getReq entries).map (fun r => r.url)
            = entries.map Prod.fst) := by
  constructor
  · intro web sd hostnameOf fuel u
    have h0 : dedupInv sd hostnameOf initSt2 := rfl
    have h := crawl2_dedupInv web sd hostnameOf fuel initSt2 h0
    rw [dedupInv] at h
    rw [h, firstWins_objGet]
  · intro entries headReq getReq
    refine ⟨batchesGo_flatten entries.length entries (Nat.le_refl _),
      batchesGo_size entries.length entries,
      batchesGo_full entries.length entries (Nat.le_refl _),
      rfl,
      checkExternal_urls headReq getReq entries⟩

/-- C7 witness: a one-link site yields a checked map binding the url to the
root page, and a one-entry list forms a single batch that flattens back. -/
theorem c7_dedup_first_wins_witness :
    objGet (crawl2 [("/", .resp 200 ["https://a.example/"])] []
        (fun _ => some "a.example") 10 initSt2).externalLinks "https://a.example/"
      = some "/"
    ∧ (batchesOf ([("https://a.example/", "/")] : Obj String)).flatten
        = [("https://a.example/", "/")] := by
  have h1 := c7_dedup_first_wins_and_batches.1
    [("/", .resp 200 ["https://a.example/"])] [] (fun _ => some "a.example") 10
    "https://a.example/"
  have h2 := (c7_dedup_first_wins_and_batches.2 [("https://a.example/", "/")]
    (fun _ => some 200) (fun _ => some 200)).1
  constructor
  · rw [h1]
    decide
  · exact h2
